import Mathlib

/-!
# Verification of the blog tag-sync tool

A shallow embedding of the core of the `tag-sync` tool
(`src/taxonomy.ts`, `src/frontmatter.ts`, `src/llm.ts`, `src/index.ts`,
`src/writer.ts`) together with proofs of the specification claims.

Modelling conventions:
* JavaScript strings are modelled as `List Char` (`Str` below).
* The ICU collators used by `localeCompare(_, 'zh-CN')` and
  `localeCompare(_, 'en-US')` are external library facilities; every
  definition that sorts takes the collator as an explicit boolean
  "less-or-equal" parameter `le`.  `Array.prototype.sort` is stable and is
  modelled by the stable `List.mergeSort`.
* The JavaScript regular-expression engine is external; a taxonomy
  `pattern` is modelled by its semantics: either a compiled matcher
  `Str → Bool`, or a compilation failure (`new RegExp` throwing).
* `JSON.parse` of an LLM answer (`parseTagsFromContent`) is external and
  is abstracted by a parameter `parse : Str → List Str`.
* Promise-based sequencing is replaced by explicit state passing; the
  concurrency scheduler (`p-limit`) is modelled by processing documents
  sequentially while keeping per-document completion data abstract where
  order matters.
-/

namespace TagSync

/-- JavaScript strings, modelled as lists of characters. -/
abbrev Str := List Char

/-- Embed a Lean string literal into the model. -/
def str (s : String) : Str := s.data

/-- `String.prototype.toLowerCase`, restricted to ASCII case mapping. -/
def lowerStr (l : Str) : Str := l.map Char.toLower

/-- The characters matched by the JavaScript `\s` class (restricted to the
ASCII range plus NBSP; the exotic Unicode space code points are not used by
any claim). -/
def isJsWhitespace (c : Char) : Bool :=
  c == ' ' || c == '\t' || c == '\n' || c == '\r' ||
  c == '\x0b' || c == '\x0c' || c == '\u00A0'

/-- A character matched by the class `[\s_/]` of `normalizeTag`. -/
def isSep (c : Char) : Bool := isJsWhitespace c || c == '_' || c == '/'

/-- `String.prototype.replace(/[\s_\/]+/g, ' ')`: every maximal run of
separator characters becomes a single space.  The boolean argument records
whether we are currently inside a run whose space has already been
emitted. -/
def collapseAux : Bool → Str → Str
  | _, [] => []
  | inRun, c :: rest =>
    if isSep c then
      if inRun then collapseAux true rest
      else ' ' :: collapseAux true rest
    else c :: collapseAux false rest

/-- The global separator-run replacement of `normalizeTag`
(src/taxonomy.ts:6).  The second replacement `/\s+/g → ' '` performed by the
source is the identity on the output of the first one (all whitespace was
already replaced), so it is not modelled separately. -/
def collapseSeps (l : Str) : Str := collapseAux false l

/-- Drop leading and trailing spaces (the only whitespace characters that
can remain after `collapseSeps`). -/
def trimSpaces (l : Str) : Str :=
  ((l.dropWhile (· == ' ')).reverse.dropWhile (· == ' ')).reverse

/-- `normalizeTag` (src/taxonomy.ts:3-9): collapse separator runs to single
spaces and trim.  The `if (!tag) return ''` guard of the source is the
identity under this model (`[]` maps to `[]`). -/
def normalizeTag (l : Str) : Str := trimSpaces (collapseSeps l)

/-- The case-insensitive identity of a tag: `normalizeTag(tag).toLowerCase()`. -/
def normKey (l : Str) : Str := lowerStr (normalizeTag l)

/-- `String.prototype.trim` (used by the front-matter `dedupeTags`). -/
def jsTrim (l : Str) : Str :=
  ((l.dropWhile isJsWhitespace).reverse.dropWhile isJsWhitespace).reverse

/-! ## `dedupe` and `mergeTags` (src/taxonomy.ts) -/

/-- The body of `dedupe` (src/taxonomy.ts:11-26): a `Map` from lowered
normalized key to the first-seen normalized casing, in insertion order. -/
def dedupeCore : List Str → List (Str × Str) → List (Str × Str)
  | [], seen => seen
  | t :: rest, seen =>
    let n := normalizeTag t
    if n = [] then dedupeCore rest seen
    else
      let key := lowerStr n
      if seen.any (fun p => p.1 == key) then dedupeCore rest seen
      else dedupeCore rest (seen ++ [(key, n)])

/-- `dedupe` (src/taxonomy.ts:11-26).  `le` is the `zh-CN` collator used by
`localeCompare` on line 23. -/
def dedupe (le : Str → Str → Bool) (tags : List Str) (sort : Bool) : List Str :=
  let values := (dedupeCore tags []).map Prod.snd
  if sort then values.mergeSort le else values

/-- The semantics of a taxonomy `pattern` string: either the matcher of the
compiled case-insensitive regex, or a compilation failure (`new RegExp`
throwing, swallowed by the `catch` on src/taxonomy.ts:52). -/
inductive PatternCheck where
  | valid (test : Str → Bool)
  | malformed

/-- A taxonomy rule `{includes?, pattern?}` (src/types.ts). -/
structure TaxonomyRule where
  includes : Option (List Str)
  pattern : Option PatternCheck

/-- `TaxonomyRules`: an object mapping category name to rule;
`Object.entries` iterates in declaration order, so the object is modelled
as an association list. -/
abbrev Taxonomy := List (Str × TaxonomyRule)

/-- The explicit-include check of `classifyTags` (src/taxonomy.ts:39):
`includes.some(c => normalizeTag(c).toLowerCase() === normalizeTag(tag).toLowerCase())`
with `includes ?? []`. -/
def includesMatch (rule : TaxonomyRule) (tag : Str) : Bool :=
  (rule.includes.getD []).any (fun cand => normKey cand == normKey tag)

/-- The pattern check of `classifyTags` (src/taxonomy.ts:44-55): test the
case-insensitive regex against the raw tag; a missing pattern or a regex
compilation failure never matches. -/
def patternMatch (rule : TaxonomyRule) (tag : Str) : Bool :=
  match rule.pattern with
  | some (.valid test) => test tag
  | some .malformed => false
  | none => false

/-- The inner category loop of `classifyTags` (src/taxonomy.ts:36-56):
first category (in declared order) whose includes match, or failing that
whose pattern matches; otherwise fall through, ending at
`uncategorized`. -/
def classifyTag : Option Taxonomy → Str → Str
  | none, _ => str "uncategorized"
  | some [], _ => str "uncategorized"
  | some ((category, rule) :: rest), tag =>
    if includesMatch rule tag then category
    else if patternMatch rule tag then category
    else classifyTag (some rest) tag

/-- `classifyTags` (src/taxonomy.ts:28-62).  The source accumulates a
record keyed by the raw tag; since the input tags of every call are
pairwise distinct (they come from `dedupe`), the record is modelled as the
association list of per-tag classifications. -/
def classifyTags (tags : List Str) (taxonomyRules : Option Taxonomy) : List (Str × Str) :=
  tags.map (fun tag => (tag, classifyTag taxonomyRules tag))

/-- The configuration slice consumed by `mergeTags`
(`Pick<TagSyncConfig, 'sortTags' | 'taxonomyRules'>`). -/
structure MergeConfig where
  sortTags : Bool
  taxonomyRules : Option Taxonomy

/-- `MergeResult` (src/types.ts). -/
structure MergeResult where
  tags : List Str
  added : List Str
  classification : List (Str × Str)
deriving DecidableEq

/-- `mergeTags` (src/taxonomy.ts:64-82). -/
def mergeTags (le : Str → Str → Bool) (fromSource recommended : List Str)
    (historical : Option (List Str)) (config : MergeConfig) : MergeResult :=
  let historyPart := match historical with
    | some h => dedupe le h false
    | none => []
  let sourcePart := dedupe le fromSource false
  let ordered := historyPart ++ sourcePart ++ recommended
  let unique := dedupe le ordered config.sortTags
  let existingSet := (historyPart ++ sourcePart).map (fun tag => normKey tag)
  let added := unique.filter (fun tag => !(existingSet.any (fun k => k == normKey tag)))
  { tags := unique
    added := added
    classification := classifyTags unique config.taxonomyRules }

/-! ## Spec-side characterizations of the merge (§4.3 of the spec) -/

/-- Spec §4.3 step 1-3 (unsorted): the ordered union of the normalized
tags in which the first case-insensitive occurrence wins for both casing
and position — later tags with an already-seen key are filtered away,
empty normalizations are dropped. -/
def specOrderedUnion : List Str → List Str
  | [] => []
  | t :: rest =>
    let n := normalizeTag t
    if n = [] then specOrderedUnion rest
    else n :: specOrderedUnion (rest.filter (fun u => normKey u ≠ normKey t))
termination_by l => l.length
decreasing_by
  · simp
  · exact Nat.lt_succ_of_le (List.length_filter_le _ _)

/-! ## Front-matter synchronizer (src/frontmatter.ts) -/

/-- The body of the front-matter `dedupeTags` (src/frontmatter.ts:106-121):
like `dedupe`, but each tag is merely trimmed (`raw.trim()`) instead of
being run through `normalizeTag`. -/
def dedupeTagsCore : List Str → List (Str × Str) → List (Str × Str)
  | [], seen => seen
  | raw :: rest, seen =>
    let trimmed := jsTrim raw
    if trimmed = [] then dedupeTagsCore rest seen
    else
      let key := lowerStr trimmed
      if seen.any (fun p => p.1 == key) then dedupeTagsCore rest seen
      else dedupeTagsCore rest (seen ++ [(key, trimmed)])

/-- `dedupeTags` (src/frontmatter.ts:106-121).  `le` is the same `zh-CN`
collator used by `dedupe` in src/taxonomy.ts. -/
def dedupeTags (le : Str → Str → Bool) (tags : List Str) (sort : Bool) : List Str :=
  let values := (dedupeTagsCore tags []).map Prod.snd
  if sort then values.mergeSort le else values

/-- Outcome of one tag-index entry in `syncFrontmatterFromTags`. -/
inductive EntryStatus where
  | updated
  | unchanged
  | missing
  | filteredOut
deriving DecidableEq

/-- The per-entry decision of the `syncFrontmatterFromTags` loop
(src/frontmatter.ts:241-262): `lookup` models `postMap.get` and returns
the own tags (`ensureArray(post.frontMatter.tags)`) of a loaded post,
`onDisk` models the `fileExists` probe of the resolved absolute path, and
`filterApplied` is `options.filter.trim().length > 0`.  Identifiers are
taken to be in posix form already (`toPosix` is the identity on them). -/
def entryStatus (le : Str → Str → Bool) (filterApplied : Bool)
    (lookup : Str → Option (List Str)) (onDisk : Str → Bool)
    (sortTags : Bool) (entry : Str × List Str) : EntryStatus :=
  match lookup entry.1 with
  | none =>
    if filterApplied then .filteredOut
    else if onDisk entry.1 then .filteredOut
    else .missing
  | some ownTags =>
    if dedupeTags le entry.2 sortTags = dedupeTags le ownTags sortTags then .unchanged
    else .updated

/-- `FrontmatterSyncResult` (src/frontmatter.ts:98-104), without the entry
count. -/
structure SyncOutcome where
  updated : List Str
  unchanged : List Str
  missing : List Str
  filteredOut : List Str
deriving DecidableEq

/-- The whole entry loop of `syncFrontmatterFromTags`
(src/frontmatter.ts:234-282): each entry is appended to the list named by
its status.  The rewrite of changed documents is outside the scope of the
claims about this loop. -/
def applyEntries (le : Str → Str → Bool) (filterApplied : Bool)
    (lookup : Str → Option (List Str)) (onDisk : Str → Bool)
    (sortTags : Bool) : List (Str × List Str) → SyncOutcome
  | [] => ⟨[], [], [], []⟩
  | entry :: rest =>
    let result := applyEntries le filterApplied lookup onDisk sortTags rest
    match entryStatus le filterApplied lookup onDisk sortTags entry with
    | .updated => { result with updated := entry.1 :: result.updated }
    | .unchanged => { result with unchanged := entry.1 :: result.unchanged }
    | .missing => { result with missing := entry.1 :: result.missing }
    | .filteredOut => { result with filteredOut := entry.1 :: result.filteredOut }

/-! ## Tag index state (src/index.ts, src/writer.ts) -/

/-- The persisted `TagsMap`, a JSON object in insertion order, modelled as
an association list from document identifier to tag list. -/
abbrev TagsMap := List (Str × List Str)

/-- `map[key] = value` on a plain object: overwrite in place if the key is
present (keeping its position), append otherwise. -/
def setKey (m : TagsMap) (k : Str) (v : List Str) : TagsMap :=
  if m.any (fun kv => kv.1 == k) then
    m.map (fun kv => if kv.1 == k then (k, v) else kv)
  else m ++ [(k, v)]

/-- Replay a sequence of per-document completions
(`tagsMap[post.relativePath] = merge.tags`, src/index.ts:166) onto a map. -/
def applyUpdates (m : TagsMap) (updates : List (Str × List Str)) : TagsMap :=
  updates.foldl (fun acc u => setKey acc u.1 u.2) m

/-- `sortTagsMap` (src/index.ts:112-114): re-build the object with its
entries sorted by the `en-US` collator on keys (`Array.prototype.sort` is
stable, hence `mergeSort`).  `enLe a b` models `a.localeCompare(b, 'en-US') <= 0`. -/
def sortTagsMap (enLe : Str → Str → Bool) (m : TagsMap) : TagsMap :=
  m.mergeSort (fun a b => enLe a.1 b.1)

/-- The pruning step at finalize (src/index.ts:180-188): when no path
filter was active, delete every key of the map that was not seen in the
current corpus pass; with a filter active, delete nothing. -/
def pruneAbsent (filterApplied : Bool) (processedPaths : List Str) (m : TagsMap) : TagsMap :=
  if filterApplied then m
  else m.filter (fun kv => processedPaths.any (fun p => p == kv.1))

/-- Every map handed to the persistence layer by `runGenerate`
(src/index.ts:148-197), in order: the incremental snapshots written by
`scheduleWrite` after each completion (suppressed under `--dry-run`),
followed by the finalize map — `sortTagsMap` of the pruned map, which is
what all three finalize branches pass on (`writeTagsFile(sortedTagsMap)`
on the dry-run and no-new-posts branches, `scheduleWrite('finalize')`
otherwise).  `completions` is the per-document completion sequence
(identifier, merged tags), abstract in content and order. -/
def runGenerateWrites (enLe : Str → Str → Bool) (dryRun filterApplied : Bool)
    (historical : TagsMap) (processedPaths : List Str)
    (completions : List (Str × List Str)) : List TagsMap :=
  (if dryRun then []
   else (List.range completions.length).map
     (fun i => sortTagsMap enLe (applyUpdates historical (completions.take (i + 1)))))
  ++ [sortTagsMap enLe (pruneAbsent filterApplied processedPaths
        (applyUpdates historical completions))]

/-! ## LLM call and retry orchestration (src/llm.ts) -/

/-- `LlmResponse` (src/types.ts), with `Error` modelled by its message. -/
structure LlmResponse where
  tags : List Str
  raw : Option Str
  error : Option Str
deriving DecidableEq

/-- The transport outcome of one chat-completion attempt: either an HTTP
success whose first message content is `content`, or a failure (non-ok
status, timeout abort, connection error) carrying the thrown message. -/
inductive TransportOutcome where
  | ok (content : Str)
  | fail (message : Str)

/-- `callChatCompletion` (src/llm.ts:48-99): a missing API key or any
transport failure is caught and returned as an error-valued response with
empty tags; a success parses the content for tags.  `parse` abstracts
`parseTagsFromContent` (regex scan + `JSON.parse`). -/
def callChatCompletion (apiKey : Option Str) (parse : Str → List Str)
    (outcome : TransportOutcome) : LlmResponse :=
  match apiKey with
  | none => { tags := [], raw := none, error := some (str "Missing TAG_SYNC_API_KEY") }
  | some _ =>
    match outcome with
    | .fail message => { tags := [], raw := none, error := some message }
    | .ok content => { tags := parse content, raw := some content, error := none }

/-- The backoff delay before retry attempt `attempt` (src/llm.ts:152):
`Math.min(2000 * attempt, 5000)`. -/
def backoffMs (attempt : Nat) : Nat := min (2000 * attempt) 5000

/-- The observable per-document state of the `generateTags` worker:
`results.get(path)`, `merges.get(path)`, and the backoff delays observed
while processing the document. -/
structure PostState where
  result : Option LlmResponse
  merge : Option MergeResult
  backoffs : List Nat
deriving DecidableEq

/-- One traversal of the `while (attempt <= retries)` loop of
`generateTags` (src/llm.ts:149-172).  `responses` gives the value returned
by `callChatCompletion` for each attempt number (the function never
throws), and `cb` is the awaited `onPostProcessed` callback, the only
statement of the `try` block that can throw.  Returns the state together
with the final `lastError` and whether the loop exited by exhaustion
(`true`) rather than by `return` (`false`). -/
def attemptLoop (le : Str → Str → Bool) (config : MergeConfig)
    (own hist : List Str) (responses : Nat → LlmResponse)
    (cb : MergeResult → Except Str Unit) :
    Nat → Nat → PostState → Option Str → PostState × Option Str × Bool
  | 0, _, st, lastError => (st, lastError, true)
  | fuel + 1, attempt, st, lastError =>
    let st := if attempt > 0 then { st with backoffs := st.backoffs ++ [backoffMs attempt] } else st
    let response := responses attempt
    let merged := mergeTags le own response.tags (some hist) config
    let st := { st with result := some response, merge := some merged }
    match cb merged with
    | .error e => attemptLoop le config own hist responses cb fuel (attempt + 1) st (some e)
    | .ok _ =>
      (st, (if response.error.isSome then response.error else lastError), false)

/-- The per-document body of `generateTags` (src/llm.ts:144-180): run the
attempt loop with `fuel = retries + 1` (the loop condition is
`attempt <= retries`); if it exhausts with a recorded `lastError`, store
the fallback error result and the merge of an empty proposed list, and
invoke the callback once more — that last `await` sits outside any `try`,
so its failure propagates (hence the `Except`). -/
def processPost (le : Str → Str → Bool) (config : MergeConfig)
    (own hist : List Str) (responses : Nat → LlmResponse)
    (cb : MergeResult → Except Str Unit) (retries : Nat) : Except Str PostState :=
  match attemptLoop le config own hist responses cb (retries + 1) 0 ⟨none, none, []⟩ none with
  | (st, _, false) => .ok st
  | (st, none, true) => .ok st
  | (st, some e, true) =>
    let fallbackMerge := mergeTags le own [] (some hist) config
    match cb fallbackMerge with
    | .error e2 => .error e2
    | .ok _ => .ok { result := some { tags := [], raw := none, error := some e }
                     merge := some fallbackMerge
                     backoffs := st.backoffs }

/-- A document as seen by `generateTags`: identifier and front-matter
tags. -/
structure Post where
  id : Str
  own : List Str

/-- `generateTags` (src/llm.ts:121-186) over a list of documents, with the
`p-limit` scheduler replaced by sequential traversal (each document's
processing is independent; only the shared `historicalTagsMap`, updated at
each completion, is threaded through).  `retriesOpt` models
`options.retries ?? 2`.  The returned list carries one entry per processed
document. -/
def generateTags (le : Str → Str → Bool) (config : MergeConfig)
    (responses : Str → Nat → LlmResponse) (cb : Str → MergeResult → Except Str Unit)
    (retriesOpt : Option Nat) (historical : TagsMap) :
    List Post → Except Str (List (Str × PostState))
  | [] => .ok []
  | post :: rest =>
    let hist := ((historical.find? (fun kv => kv.1 == post.id)).map Prod.snd).getD []
    match processPost le config post.own hist (responses post.id) (cb post.id)
        (retriesOpt.getD 2) with
    | .error e => .error e
    | .ok st =>
      let historical := match st.merge with
        | some m => setKey historical post.id m.tags
        | none => historical
      match generateTags le config responses cb retriesOpt historical rest with
      | .error e => .error e
      | .ok tail => .ok ((post.id, st) :: tail)

/-! ## The ordered-union characterization of `dedupe` -/

/-- Accumulator form of the spec-side union: keep the normalized form of
each tag whose lowered key is new, threading the list of seen keys. -/
def firstKeep (ks : List Str) : List Str → List Str
  | [] => []
  | t :: rest =>
    let n := normalizeTag t
    if n = [] then firstKeep ks rest
    else if lowerStr n ∈ ks then firstKeep ks rest
    else n :: firstKeep (ks ++ [lowerStr n]) rest

theorem any_beq_fst (seen : List (Str × Str)) (k : Str) :
    (seen.any fun p => p.1 == k) = decide (k ∈ seen.map Prod.fst) := by
  rw [Bool.eq_iff_iff]
  simp only [List.any_eq_true, decide_eq_true_eq, List.mem_map, beq_iff_eq]

/-- The `Map`-based loop of `dedupe` computes `firstKeep`. -/
theorem dedupeCore_eq (l : List Str) : ∀ seen : List (Str × Str),
    (dedupeCore l seen).map Prod.snd = seen.map Prod.snd ++ firstKeep (seen.map Prod.fst) l := by
  induction l with
  | nil => intro seen; simp [dedupeCore, firstKeep]
  | cons t rest ih =>
    intro seen
    by_cases hn : normalizeTag t = []
    · simp [dedupeCore, firstKeep, hn, ih]
    · by_cases hk : lowerStr (normalizeTag t) ∈ seen.map Prod.fst
      · have hany : (seen.any fun p => p.1 == lowerStr (normalizeTag t)) = true := by
          rw [any_beq_fst]; exact decide_eq_true hk
        simp [dedupeCore, firstKeep, hn, hk, hany, ih]
      · have hany : (seen.any fun p => p.1 == lowerStr (normalizeTag t)) = false := by
          rw [any_beq_fst]; exact decide_eq_false hk
        simp [dedupeCore, firstKeep, hn, hk, hany, ih seen]
        rw [ih (seen ++ [(lowerStr (normalizeTag t), normalizeTag t)])]
        simp

theorem dedupe_false_eq (le : Str → Str → Bool) (l : List Str) :
    dedupe le l false = firstKeep [] l := by
  simpa [dedupe] using dedupeCore_eq l []

theorem dedupe_true_eq (le : Str → Str → Bool) (l : List Str) :
    dedupe le l true = (firstKeep [] l).mergeSort le := by
  have h := dedupeCore_eq l []
  simp at h
  simp [dedupe, h]

theorem beq_eq_decide_eq (a b : Str) : (a == b) = decide (a = b) := by
  rw [Bool.eq_iff_iff]
  simp

/-- `firstKeep` only consults the seen keys through membership. -/
theorem firstKeep_nil (ks : List Str) : firstKeep ks [] = [] := rfl

theorem firstKeep_cons (ks : List Str) (t : Str) (rest : List Str) :
    firstKeep ks (t :: rest) =
      if normalizeTag t = [] then firstKeep ks rest
      else if lowerStr (normalizeTag t) ∈ ks then firstKeep ks rest
      else normalizeTag t :: firstKeep (ks ++ [lowerStr (normalizeTag t)]) rest := rfl

/-- `firstKeep` only consults the seen keys through membership. -/
theorem firstKeep_congr : ∀ (l ks₁ ks₂ : List Str),
    (∀ k, k ∈ ks₁ ↔ k ∈ ks₂) → firstKeep ks₁ l = firstKeep ks₂ l := by
  intro l
  induction l with
  | nil => intro ks₁ ks₂ _; rfl
  | cons t rest ih =>
    intro ks₁ ks₂ h
    rw [firstKeep_cons, firstKeep_cons]
    by_cases hn : normalizeTag t = []
    · simp only [if_pos hn]
      exact ih _ _ h
    · simp only [if_neg hn]
      by_cases hk : lowerStr (normalizeTag t) ∈ ks₁
      · rw [if_pos hk, if_pos ((h _).mp hk)]
        exact ih _ _ h
      · have hk₂ : lowerStr (normalizeTag t) ∉ ks₂ := fun hx => hk ((h _).mpr hx)
        rw [if_neg hk, if_neg hk₂]
        exact congrArg _ (ih _ _ (fun k => by simp [List.mem_append, h k]))

/-- Marking one extra key as seen is the same as filtering away every tag
with that key. -/
theorem firstKeep_append_key : ∀ (l ks : List Str) (k : Str),
    firstKeep (ks ++ [k]) l = firstKeep ks (l.filter fun u => !(normKey u == k)) := by
  intro l
  induction l with
  | nil => intro ks k; rfl
  | cons t rest ih =>
    intro ks k
    by_cases hf : normKey t = k
    · have hdrop : (!(normKey t == k)) = false := by simp [hf]
      rw [List.filter_cons, hdrop, if_neg (by simp)]
      rw [firstKeep_cons]
      by_cases hn : normalizeTag t = []
      · rw [if_pos hn]
        exact ih ks k
      · have hmem : lowerStr (normalizeTag t) ∈ ks ++ [k] := by
          simp only [List.mem_append, List.mem_singleton]
          right
          simpa [normKey] using hf
        rw [if_neg hn, if_pos hmem]
        exact ih ks k
    · have hkeep : (!(normKey t == k)) = true := by simp [hf]
      rw [List.filter_cons, hkeep, if_pos rfl]
      rw [firstKeep_cons, firstKeep_cons]
      by_cases hn : normalizeTag t = []
      · rw [if_pos hn, if_pos hn]
        exact ih ks k
      · rw [if_neg hn, if_neg hn]
        by_cases hk : lowerStr (normalizeTag t) ∈ ks
        · have hmem : lowerStr (normalizeTag t) ∈ ks ++ [k] := by
            simp [List.mem_append, hk]
          rw [if_pos hmem, if_pos hk]
          exact ih ks k
        · have hmem : lowerStr (normalizeTag t) ∉ ks ++ [k] := by
            simp only [List.mem_append, List.mem_singleton]
            rintro (hx | hx)
            · exact hk hx
            · exact hf (by simpa [normKey] using hx)
          rw [if_neg hmem, if_neg hk]
          refine congrArg _ ?_
          have hswap : firstKeep (ks ++ [k] ++ [lowerStr (normalizeTag t)]) rest
              = firstKeep (ks ++ [lowerStr (normalizeTag t)] ++ [k]) rest := by
            apply firstKeep_congr
            intro x
            simp only [List.mem_append, List.mem_singleton]
            tauto
          rw [hswap]
          exact ih (ks ++ [lowerStr (normalizeTag t)]) k

theorem specOrderedUnion_nil : specOrderedUnion [] = [] := by
  simp [specOrderedUnion]

theorem specOrderedUnion_cons (t : Str) (rest : List Str) :
    specOrderedUnion (t :: rest) =
      if normalizeTag t = [] then specOrderedUnion rest
      else normalizeTag t ::
        specOrderedUnion (rest.filter fun u => decide (normKey u ≠ normKey t)) := by
  rw [specOrderedUnion]

/-- The spec-side ordered union agrees with `firstKeep` started empty. -/
theorem specOrderedUnion_eq_aux : ∀ (n : Nat) (l : List Str), l.length ≤ n →
    specOrderedUnion l = firstKeep [] l := by
  intro n
  induction n with
  | zero =>
    intro l hl
    have h0 : l = [] := List.length_eq_zero.mp (Nat.le_zero.mp hl)
    subst h0
    exact specOrderedUnion_nil
  | succ n ih =>
    intro l hl
    match l with
    | [] => exact specOrderedUnion_nil
    | t :: rest =>
      rw [specOrderedUnion_cons, firstKeep_cons]
      by_cases hn : normalizeTag t = []
      · rw [if_pos hn, if_pos hn]
        exact ih rest (by simpa using Nat.le_of_succ_le_succ hl)
      · rw [if_neg hn, if_neg hn, if_neg (List.not_mem_nil _), List.nil_append]
        have h3 : firstKeep [lowerStr (normalizeTag t)] rest
            = firstKeep [] (rest.filter fun u => !(normKey u == normKey t)) := by
          have h4 := firstKeep_append_key rest [] (normKey t)
          simpa [normKey] using h4
        rw [h3]
        have h5 : (rest.filter fun u => decide (normKey u ≠ normKey t))
            = rest.filter fun u => !(normKey u == normKey t) :=
          List.filter_congr (fun u _ => by simp [beq_eq_decide_eq])
        rw [h5]
        exact congrArg _ (ih _ (le_trans (List.length_filter_le _ _)
          (by simpa using Nat.le_of_succ_le_succ hl)))

theorem specOrderedUnion_eq (l : List Str) : specOrderedUnion l = firstKeep [] l :=
  specOrderedUnion_eq_aux l.length l (Nat.le_refl _)

/-- Splitting the processed list splits `firstKeep`, the second half
seeing the keys produced by the first. -/
theorem firstKeep_append : ∀ (xs ks ys : List Str),
    firstKeep ks (xs ++ ys)
      = firstKeep ks xs ++ firstKeep (ks ++ (firstKeep ks xs).map lowerStr) ys := by
  intro xs
  induction xs with
  | nil => intro ks ys; simp [firstKeep_nil]
  | cons t xs ih =>
    intro ks ys
    rw [List.cons_append, firstKeep_cons, firstKeep_cons]
    by_cases hn : normalizeTag t = []
    · rw [if_pos hn, if_pos hn]
      exact ih ks ys
    · rw [if_neg hn, if_neg hn]
      by_cases hk : lowerStr (normalizeTag t) ∈ ks
      · rw [if_pos hk, if_pos hk]
        exact ih ks ys
      · rw [if_neg hk, if_neg hk, List.cons_append]
        refine congrArg _ ?_
        rw [ih (ks ++ [lowerStr (normalizeTag t)]) ys, List.map_cons]
        have hK : ks ++ [lowerStr (normalizeTag t)]
              ++ (firstKeep (ks ++ [lowerStr (normalizeTag t)]) xs).map lowerStr
            = ks ++ lowerStr (normalizeTag t)
              :: (firstKeep (ks ++ [lowerStr (normalizeTag t)]) xs).map lowerStr := by
          simp [List.append_assoc]
        rw [hK]

/-! ## Shape and idempotence of `normalizeTag` -/

theorem toNat_ofNat_valid (n : Nat) (h : n.isValidChar) : (Char.ofNat n).toNat = n := by
  rw [Char.ofNat, dif_pos h]
  rfl

theorem toLower_eq_space_iff (c : Char) : Char.toLower c = ' ' ↔ c = ' ' := by
  constructor
  · intro h
    rw [Char.toLower.eq_def] at h
    by_cases hc : c.toNat ≥ 65 ∧ c.toNat ≤ 90
    · rw [if_pos hc] at h
      have h2 := congrArg Char.toNat h
      rw [toNat_ofNat_valid _ (Or.inl (by omega))] at h2
      have h3 : (' ' : Char).toNat = 32 := by decide
      omega
    · rwa [if_neg hc] at h
  · intro h
    subst h
    decide

/-- No two adjacent spaces. -/
def SpacedOk (a b : Char) : Prop := a ≠ ' ' ∨ b ≠ ' '

theorem collapseAux_sep_space : ∀ (l : Str) (m : Bool), ∀ c ∈ collapseAux m l,
    isSep c = true → c = ' ' := by
  intro l
  induction l with
  | nil => intro m c hc; simp [collapseAux] at hc
  | cons d rest ih =>
    intro m c hc hsep
    by_cases hd : isSep d = true
    · cases m with
      | true =>
        simp only [collapseAux, hd, if_true] at hc
        exact ih true c hc hsep
      | false =>
        simp only [collapseAux, hd, if_true] at hc
        rcases List.mem_cons.mp hc with h | h
        · exact h
        · exact ih true c h hsep
    · simp only [collapseAux, hd, if_false, Bool.false_eq_true] at hc
      rcases List.mem_cons.mp hc with h | h
      · subst h; exact absurd hsep (by simpa using hd)
      · exact ih false c h hsep

theorem collapseAux_true_head : ∀ (l : Str) (c : Char),
    (collapseAux true l).head? = some c → isSep c = false := by
  intro l
  induction l with
  | nil => intro c hc; simp [collapseAux] at hc
  | cons d rest ih =>
    intro c hc
    by_cases hd : isSep d = true
    · simp only [collapseAux, hd, if_true] at hc
      exact ih c hc
    · simp only [collapseAux, hd, if_false, Bool.false_eq_true, List.head?_cons] at hc
      cases hc
      simpa using hd

theorem collapseAux_chain : ∀ (l : Str) (m : Bool),
    List.Chain' SpacedOk (collapseAux m l) := by
  intro l
  induction l with
  | nil => intro m; simp [collapseAux]
  | cons d rest ih =>
    intro m
    by_cases hd : isSep d = true
    · cases m with
      | true => simpa only [collapseAux, hd, if_true] using ih true
      | false =>
        simp only [collapseAux, hd, if_true]
        rw [if_neg Bool.false_ne_true, List.chain'_cons']
        refine ⟨?_, ih true⟩
        intro y hy
        right
        intro hy2
        subst hy2
        have := collapseAux_true_head rest ' ' hy
        simp [isSep, isJsWhitespace] at this
    · simp only [collapseAux, hd, if_false, Bool.false_eq_true]
      rw [List.chain'_cons']
      refine ⟨?_, ih false⟩
      intro y _
      left
      intro hd2
      subst hd2
      exact hd (by decide)

theorem head_dropWhile_not (p : Char → Bool) : ∀ (l : Str) (c : Char),
    (l.dropWhile p).head? = some c → p c = false := by
  intro l
  induction l with
  | nil => intro c hc; simp [List.dropWhile] at hc
  | cons a rest ih =>
    intro c hc
    by_cases ha : p a = true
    · rw [List.dropWhile_cons, if_pos ha] at hc
      exact ih c hc
    · rw [List.dropWhile_cons, if_neg ha, List.head?_cons] at hc
      cases hc
      simpa using ha

theorem dropWhile_append_self (p : Char → Bool) (l : Str) :
    ∃ u : Str, l = u ++ l.dropWhile p := by
  obtain ⟨u, hu⟩ := @List.dropWhile_suffix Char l p
  exact ⟨u, hu.symm⟩

/-- `trimSpaces l` together with what it removed. -/
theorem trimSpaces_decomp (l : Str) :
    ∃ u : Str, l.dropWhile (· == ' ') = trimSpaces l ++ u := by
  obtain ⟨u, hu⟩ := dropWhile_append_self (· == ' ') (l.dropWhile (· == ' ')).reverse
  refine ⟨u.reverse, ?_⟩
  have h2 := congrArg List.reverse hu
  rw [List.reverse_reverse, List.reverse_append] at h2
  exact h2.trans (by rw [trimSpaces])

theorem trimSpaces_head (l : Str) (c : Char) :
    (trimSpaces l).head? = some c → (c == ' ') = false := by
  intro h
  obtain ⟨u, hu⟩ := trimSpaces_decomp l
  apply head_dropWhile_not (· == ' ') l c
  rw [hu]
  cases h2 : trimSpaces l with
  | nil => rw [h2] at h; simp at h
  | cons a r =>
    rw [h2] at h
    rw [List.head?_cons] at h
    rw [List.cons_append, List.head?_cons]
    exact h

theorem trimSpaces_getLast (l : Str) (c : Char) :
    (trimSpaces l).getLast? = some c → (c == ' ') = false := by
  intro h
  rw [trimSpaces, List.getLast?_reverse] at h
  exact head_dropWhile_not (· == ' ') (l.dropWhile (· == ' ')).reverse c h

theorem trimSpaces_subset (l : Str) : ∀ c ∈ trimSpaces l, c ∈ l := by
  intro c hc
  rw [trimSpaces, List.mem_reverse] at hc
  have h1 := (@List.dropWhile_suffix Char ((l.dropWhile (· == ' ')).reverse) (· == ' ')).subset hc
  rw [List.mem_reverse] at h1
  exact (List.dropWhile_suffix (· == ' ')).subset h1

theorem chain_flip (l : Str) (h : List.Chain' SpacedOk l) :
    List.Chain' SpacedOk l.reverse := by
  rw [List.chain'_reverse]
  exact h.imp (fun a b hab => Or.symm hab)

theorem trimSpaces_chain (l : Str) (h : List.Chain' SpacedOk l) :
    List.Chain' SpacedOk (trimSpaces l) := by
  rw [trimSpaces]
  apply chain_flip
  apply List.Chain'.suffix _ (List.dropWhile_suffix _)
  apply chain_flip
  exact List.Chain'.suffix h (List.dropWhile_suffix _)

/-- The shape of every `normalizeTag` output: only single interior spaces
as separators, and no leading or trailing space. -/
theorem normalizeTag_shape (s : Str) :
    (∀ c ∈ normalizeTag s, isSep c = true → c = ' ')
    ∧ List.Chain' SpacedOk (normalizeTag s)
    ∧ (∀ c, (normalizeTag s).head? = some c → c ≠ ' ')
    ∧ (∀ c, (normalizeTag s).getLast? = some c → c ≠ ' ') := by
  refine ⟨?_, ?_, ?_, ?_⟩
  · intro c hc hsep
    exact collapseAux_sep_space s false c (trimSpaces_subset _ c hc) hsep
  · exact trimSpaces_chain _ (collapseAux_chain s false)
  · intro c hc
    have h2 := trimSpaces_head _ c hc
    simpa using h2
  · intro c hc
    have h2 := trimSpaces_getLast _ c hc
    simpa using h2

theorem collapse_eq_self : ∀ l : Str, (∀ c ∈ l, isSep c = true → c = ' ') →
    List.Chain' SpacedOk l →
    collapseAux false l = l
    ∧ ((∀ c, l.head? = some c → c ≠ ' ') → collapseAux true l = l) := by
  intro l
  induction l with
  | nil => intro _ _; exact ⟨rfl, fun _ => rfl⟩
  | cons d rest ih =>
    intro hsep hch
    obtain ⟨hhd, hch2⟩ := List.chain'_cons'.mp hch
    have ihr := ih (fun c hc => hsep c (List.mem_cons_of_mem d hc)) hch2
    by_cases hd : isSep d = true
    · have hdsp : d = ' ' := hsep d (List.mem_cons_self d rest) hd
      have hresthead : ∀ c, rest.head? = some c → c ≠ ' ' := by
        intro c hc
        have h2 := hhd c hc
        rcases h2 with h2 | h2
        · exact absurd hdsp h2
        · exact h2
      constructor
      · simp only [collapseAux, hd, if_true]
        rw [if_neg Bool.false_ne_true]
        rw [ihr.2 hresthead, hdsp]
      · intro hhead
        exact absurd hdsp (hhead d (List.head?_cons))
    · have hboth : collapseAux true (d :: rest) = d :: collapseAux false rest := by
        simp only [collapseAux, hd, Bool.false_eq_true, if_false]
      have hboth2 : collapseAux false (d :: rest) = d :: collapseAux false rest := by
        simp only [collapseAux, hd, Bool.false_eq_true, if_false]
      rw [hboth, hboth2, ihr.1]
      exact ⟨rfl, fun _ => rfl⟩

theorem dropWhile_eq_self_of_head (p : Char → Bool) (l : Str)
    (h : ∀ c, l.head? = some c → p c = false) : l.dropWhile p = l := by
  cases l with
  | nil => rfl
  | cons a rest =>
    rw [List.dropWhile_cons, if_neg]
    rw [h a List.head?_cons]
    simp

theorem trimSpaces_eq_self (l : Str)
    (h1 : ∀ c, l.head? = some c → c ≠ ' ')
    (h2 : ∀ c, l.getLast? = some c → c ≠ ' ') : trimSpaces l = l := by
  rw [trimSpaces]
  rw [dropWhile_eq_self_of_head _ l (fun c hc => by simpa using h1 c hc)]
  rw [dropWhile_eq_self_of_head _ l.reverse
    (fun c hc => by simpa using h2 c (by rwa [List.head?_reverse] at hc))]
  exact List.reverse_reverse l

/-- `normalizeTag` is idempotent. -/
theorem normalizeTag_idem (s : Str) : normalizeTag (normalizeTag s) = normalizeTag s := by
  obtain ⟨hsep, hch, hhd, hlast⟩ := normalizeTag_shape s
  have h1 : collapseSeps (normalizeTag s) = normalizeTag s :=
    (collapse_eq_self (normalizeTag s) hsep hch).1
  show trimSpaces (collapseSeps (normalizeTag s)) = normalizeTag s
  rw [h1]
  exact trimSpaces_eq_self _ hhd hlast

theorem normKey_normalizeTag (s : Str) : normKey (normalizeTag s) = normKey s := by
  rw [normKey, normKey, normalizeTag_idem]

theorem lowerStr_eq_normKey_of_normalized {t : Str} (h : normalizeTag t = t) :
    lowerStr t = normKey t := by
  rw [normKey, h]

/-- Every element of a `firstKeep` output is a nonempty normalized tag
from the input whose key is new. -/
theorem firstKeep_mem : ∀ (l ks : List Str) (t : Str), t ∈ firstKeep ks l →
    (∃ u ∈ l, t = normalizeTag u) ∧ t ≠ [] ∧ lowerStr t ∉ ks := by
  intro l
  induction l with
  | nil => intro ks t ht; simp [firstKeep_nil] at ht
  | cons a rest ih =>
    intro ks t ht
    rw [firstKeep_cons] at ht
    by_cases hn : normalizeTag a = []
    · rw [if_pos hn] at ht
      obtain ⟨⟨u, hu, he⟩, hne, hks⟩ := ih ks t ht
      exact ⟨⟨u, List.mem_cons_of_mem a hu, he⟩, hne, hks⟩
    · rw [if_neg hn] at ht
      by_cases hk : lowerStr (normalizeTag a) ∈ ks
      · rw [if_pos hk] at ht
        obtain ⟨⟨u, hu, he⟩, hne, hks⟩ := ih ks t ht
        exact ⟨⟨u, List.mem_cons_of_mem a hu, he⟩, hne, hks⟩
      · rw [if_neg hk] at ht
        rcases List.mem_cons.mp ht with h | h
        · subst h
          exact ⟨⟨a, List.mem_cons_self a rest, rfl⟩, hn, hk⟩
        · obtain ⟨⟨u, hu, he⟩, hne, hks⟩ := ih (ks ++ [lowerStr (normalizeTag a)]) t h
          refine ⟨⟨u, List.mem_cons_of_mem a hu, he⟩, hne, fun hmem => ?_⟩
          exact hks (List.mem_append_left _ hmem)

theorem firstKeep_mem_normalized {l ks : List Str} {t : Str} (h : t ∈ firstKeep ks l) :
    normalizeTag t = t := by
  obtain ⟨⟨u, _, he⟩, _, _⟩ := firstKeep_mem l ks t h
  rw [he, normalizeTag_idem]

/-- `firstKeep` composes: re-running it with more seen keys filters by
the union of the key lists. -/
theorem firstKeep_firstKeep : ∀ (l ks₁ ks₂ : List Str),
    firstKeep ks₁ (firstKeep ks₂ l) = firstKeep (ks₁ ++ ks₂) l := by
  intro l
  induction l with
  | nil => intro ks₁ ks₂; rfl
  | cons a rest ih =>
    intro ks₁ ks₂
    rw [firstKeep_cons ks₂, firstKeep_cons (ks₁ ++ ks₂)]
    by_cases hn : normalizeTag a = []
    · rw [if_pos hn, if_pos hn]
      exact ih ks₁ ks₂
    · rw [if_neg hn, if_neg hn]
      by_cases hk2 : lowerStr (normalizeTag a) ∈ ks₂
      · rw [if_pos hk2, if_pos (List.mem_append_right ks₁ hk2)]
        exact ih ks₁ ks₂
      · rw [if_neg hk2]
        by_cases hk1 : lowerStr (normalizeTag a) ∈ ks₁
        · rw [if_pos (List.mem_append_left ks₂ hk1)]
          rw [firstKeep_cons]
          rw [if_neg (by rw [normalizeTag_idem]; exact hn)]
          rw [if_pos (by rw [normalizeTag_idem]; exact hk1)]
          rw [ih ks₁ (ks₂ ++ [lowerStr (normalizeTag a)])]
          apply firstKeep_congr
          intro x
          simp only [List.mem_append, List.mem_singleton]
          constructor
          · rintro (h | h | h)
            · exact Or.inl h
            · exact Or.inr h
            · subst h; exact Or.inl hk1
          · rintro (h | h)
            · exact Or.inl h
            · exact Or.inr (Or.inl h)
        · rw [if_neg (fun hmem => (List.mem_append.mp hmem).elim hk1 hk2)]
          rw [firstKeep_cons]
          rw [if_neg (by rw [normalizeTag_idem]; exact hn)]
          rw [if_neg (by rw [normalizeTag_idem]; exact hk1)]
          simp only [normalizeTag_idem]
          refine congrArg _ ?_
          rw [ih (ks₁ ++ [lowerStr (normalizeTag a)]) (ks₂ ++ [lowerStr (normalizeTag a)])]
          apply firstKeep_congr
          intro x
          simp only [List.mem_append, List.mem_singleton]
          tauto

theorem firstKeep_mem_key {l ks : List Str} {t : Str} (h : t ∈ firstKeep ks l) :
    normKey t = lowerStr t := by
  rw [normKey, firstKeep_mem_normalized h]

/-- Each kept tag is the normalization of the first input tag bearing its
key. -/
theorem firstKeep_first_seen : ∀ (l ks : List Str) (t : Str), t ∈ firstKeep ks l →
    ∃ pre u post, l = pre ++ u :: post ∧ t = normalizeTag u ∧
      ∀ v ∈ pre, normKey v ≠ normKey t := by
  intro l
  induction l with
  | nil => intro ks t ht; simp [firstKeep_nil] at ht
  | cons a rest ih =>
    intro ks t ht
    have hmem := firstKeep_mem _ _ _ ht
    have htkey : normKey t = lowerStr t := firstKeep_mem_key ht
    rw [firstKeep_cons] at ht
    by_cases hn : normalizeTag a = []
    · rw [if_pos hn] at ht
      obtain ⟨pre, u, post, hsplit, he, hpre⟩ := ih ks t ht
      refine ⟨a :: pre, u, post, by rw [hsplit]; rfl, he, ?_⟩
      intro v hv
      rcases List.mem_cons.mp hv with h | h
      · subst h
        rw [normKey, hn, htkey]
        intro hcontra
        have h3 := hmem.2.1
        simp [lowerStr] at hcontra
        exact h3 hcontra
      · exact hpre v h
    · rw [if_neg hn] at ht
      by_cases hk : lowerStr (normalizeTag a) ∈ ks
      · rw [if_pos hk] at ht
        obtain ⟨pre, u, post, hsplit, he, hpre⟩ := ih ks t ht
        refine ⟨a :: pre, u, post, by rw [hsplit]; rfl, he, ?_⟩
        intro v hv
        rcases List.mem_cons.mp hv with h | h
        · subst h
          rw [normKey, htkey]
          intro hcontra
          rw [hcontra] at hk
          exact hmem.2.2 hk
        · exact hpre v h
      · rw [if_neg hk] at ht
        rcases List.mem_cons.mp ht with h | h
        · subst h
          exact ⟨[], a, rest, rfl, rfl, by intro v hv; simp at hv⟩
        · obtain ⟨pre, u, post, hsplit, he, hpre⟩ :=
            ih (ks ++ [lowerStr (normalizeTag a)]) t h
          have hnotin := (firstKeep_mem _ _ _ h).2.2
          refine ⟨a :: pre, u, post, by rw [hsplit]; rfl, he, ?_⟩
          intro v hv
          rcases List.mem_cons.mp hv with h2 | h2
          · subst h2
            rw [normKey, htkey]
            intro hcontra
            rw [← hcontra] at hnotin
            exact hnotin (List.mem_append_right _ (List.mem_singleton.mpr rfl))
          · exact hpre v h2

/-- The keys of a `firstKeep` output are pairwise distinct and disjoint
from the seen keys. -/
theorem firstKeep_keys_nodup : ∀ (l ks : List Str),
    ((firstKeep ks l).map lowerStr).Nodup
    ∧ ∀ k ∈ (firstKeep ks l).map lowerStr, k ∉ ks := by
  intro l
  induction l with
  | nil => intro ks; simp [firstKeep_nil]
  | cons a rest ih =>
    intro ks
    rw [firstKeep_cons]
    by_cases hn : normalizeTag a = []
    · rw [if_pos hn]; exact ih ks
    · rw [if_neg hn]
      by_cases hk : lowerStr (normalizeTag a) ∈ ks
      · rw [if_pos hk]; exact ih ks
      · rw [if_neg hk, List.map_cons]
        obtain ⟨hnd, hdisj⟩ := ih (ks ++ [lowerStr (normalizeTag a)])
        constructor
        · rw [List.nodup_cons]
          refine ⟨fun hmem => ?_, hnd⟩
          exact hdisj _ hmem (List.mem_append_right _ (List.mem_singleton.mpr rfl))
        · intro k hkmem
          rcases List.mem_cons.mp hkmem with h | h
          · subst h; exact hk
          · intro hks
            exact hdisj _ h (List.mem_append_left _ hks)

/-- Key membership in a `firstKeep` output, for keys not already seen. -/
theorem firstKeep_key_mem : ∀ (l ks : List Str) (k : Str), k ≠ [] → k ∉ ks →
    ((∃ t ∈ firstKeep ks l, lowerStr t = k) ↔ ∃ u ∈ l, normKey u = k) := by
  intro l
  induction l with
  | nil => intro ks k _ _; simp [firstKeep_nil]
  | cons a rest ih =>
    intro ks k hk0 hks
    rw [firstKeep_cons]
    by_cases hn : normalizeTag a = []
    · rw [if_pos hn]
      rw [ih ks k hk0 hks]
      constructor
      · rintro ⟨u, hu, he⟩
        exact ⟨u, List.mem_cons_of_mem a hu, he⟩
      · rintro ⟨u, hu, he⟩
        rcases List.mem_cons.mp hu with h | h
        · subst h
          rw [normKey, hn] at he
          exact absurd he.symm (by simpa [lowerStr] using hk0)
        · exact ⟨u, h, he⟩
    · rw [if_neg hn]
      by_cases hk : lowerStr (normalizeTag a) ∈ ks
      · rw [if_pos hk]
        rw [ih ks k hk0 hks]
        constructor
        · rintro ⟨u, hu, he⟩
          exact ⟨u, List.mem_cons_of_mem a hu, he⟩
        · rintro ⟨u, hu, he⟩
          rcases List.mem_cons.mp hu with h | h
          · subst h
            rw [normKey] at he
            rw [he] at hk
            exact absurd hk hks
          · exact ⟨u, h, he⟩
      · rw [if_neg hk]
        by_cases hkey : k = lowerStr (normalizeTag a)
        · subst hkey
          constructor
          · intro _
            exact ⟨a, List.mem_cons_self a rest, rfl⟩
          · intro _
            exact ⟨normalizeTag a, List.mem_cons_self _ _, rfl⟩
        · have hks2 : k ∉ ks ++ [lowerStr (normalizeTag a)] := by
            intro hx
            rcases List.mem_append.mp hx with h | h
            · exact hks h
            · exact hkey (List.mem_singleton.mp h)
          rw [show (∃ t ∈ normalizeTag a :: firstKeep (ks ++ [lowerStr (normalizeTag a)]) rest,
                lowerStr t = k)
              ↔ (∃ t ∈ firstKeep (ks ++ [lowerStr (normalizeTag a)]) rest, lowerStr t = k) from ?_]
          · rw [ih _ k hk0 hks2]
            constructor
            · rintro ⟨u, hu, he⟩
              exact ⟨u, List.mem_cons_of_mem a hu, he⟩
            · rintro ⟨u, hu, he⟩
              rcases List.mem_cons.mp hu with h | h
              · subst h
                have h4 : k = lowerStr (normalizeTag u) := by rw [← he]; rfl
                exact absurd h4 hkey
              · exact ⟨u, h, he⟩
          · constructor
            · rintro ⟨t, ht, he⟩
              rcases List.mem_cons.mp ht with h | h
              · subst h
                rw [← normalizeTag_idem a] at he
                exact absurd he (fun hx => hkey (by rw [← hx, normalizeTag_idem]))
              · exact ⟨t, h, he⟩
            · rintro ⟨t, ht, he⟩
              exact ⟨t, List.mem_cons_of_mem _ ht, he⟩

/-- Pre-deduplicating the history and source parts (as `mergeTags` does)
does not change the final union. -/
theorem firstKeep_merge_chain (h o p : List Str) :
    firstKeep [] (firstKeep [] h ++ firstKeep [] o ++ p)
      = firstKeep [] (h ++ o ++ p) := by
  rw [List.append_assoc (firstKeep [] h), firstKeep_append (firstKeep [] h) []]
  rw [firstKeep_firstKeep h [] []]
  simp only [List.nil_append, List.append_nil]
  rw [firstKeep_append (firstKeep [] o) ((firstKeep [] h).map lowerStr)]
  rw [firstKeep_firstKeep o ((firstKeep [] h).map lowerStr) []]
  simp only [List.append_nil]
  rw [List.append_assoc h, firstKeep_append h []]
  simp only [List.nil_append]
  rw [firstKeep_append o ((firstKeep [] h).map lowerStr)]

/-- The merged tag list is the spec ordered union of
historical ++ own ++ proposed (sorted when requested). -/
theorem mergeTags_tags_eq (le : Str → Str → Bool) (o p h : List Str) (cfg : MergeConfig) :
    (mergeTags le o p (some h) cfg).tags
      = if cfg.sortTags then (firstKeep [] (h ++ o ++ p)).mergeSort le
        else firstKeep [] (h ++ o ++ p) := by
  show dedupe le (dedupe le h false ++ dedupe le o false ++ p) cfg.sortTags = _
  cases hs : cfg.sortTags
  · rw [dedupe_false_eq, dedupe_false_eq, dedupe_false_eq, if_neg Bool.false_ne_true]
    exact firstKeep_merge_chain h o p
  · rw [dedupe_true_eq, dedupe_false_eq, dedupe_false_eq, if_pos rfl]
    rw [firstKeep_merge_chain h o p]

theorem mem_mergeTags_tags (le : Str → Str → Bool) (o p h : List Str)
    (cfg : MergeConfig) (t : Str) :
    t ∈ (mergeTags le o p (some h) cfg).tags ↔ t ∈ firstKeep [] (h ++ o ++ p) := by
  rw [mergeTags_tags_eq]
  cases hs : cfg.sortTags
  · rw [if_neg Bool.false_ne_true]
  · rw [if_pos rfl]
    exact (List.mergeSort_perm (firstKeep [] (h ++ o ++ p)) le).mem_iff

theorem mem_tags_key_nonempty {le : Str → Str → Bool} {o p h : List Str}
    {cfg : MergeConfig} {t : Str} (ht : t ∈ (mergeTags le o p (some h) cfg).tags) :
    normKey t = lowerStr t ∧ normKey t ≠ [] := by
  have h2 := (mem_mergeTags_tags le o p h cfg t).mp ht
  obtain ⟨_, hne, _⟩ := firstKeep_mem _ _ _ h2
  refine ⟨firstKeep_mem_key h2, ?_⟩
  rw [firstKeep_mem_key h2]
  simpa [lowerStr] using hne

/-- The key set recorded in `existingSet` is exactly the set of nonempty
keys of the raw historical ++ own tags. -/
theorem existingSet_any_eq (h o : List Str) (t : Str)
    (hne : normKey t ≠ []) :
    (((firstKeep [] h ++ firstKeep [] o).map normKey).any fun k => k == normKey t)
      = ((h ++ o).any fun u => normKey u == normKey t) := by
  rw [Bool.eq_iff_iff]
  simp only [List.any_eq_true, beq_iff_eq, List.mem_map, List.mem_append]
  constructor
  · rintro ⟨k, ⟨x, hx | hx, hk⟩, he⟩
    · have h3 := firstKeep_mem_key hx
      have h4 := (firstKeep_key_mem h [] (normKey t) hne (List.not_mem_nil _)).mp
        ⟨x, hx, by rw [← h3, hk, he]⟩
      obtain ⟨u, hu, he2⟩ := h4
      exact ⟨u, Or.inl hu, he2⟩
    · have h3 := firstKeep_mem_key hx
      have h4 := (firstKeep_key_mem o [] (normKey t) hne (List.not_mem_nil _)).mp
        ⟨x, hx, by rw [← h3, hk, he]⟩
      obtain ⟨u, hu, he2⟩ := h4
      exact ⟨u, Or.inr hu, he2⟩
  · rintro ⟨u, hu | hu, he⟩
    · obtain ⟨x, hx, he2⟩ := (firstKeep_key_mem h [] (normKey t) hne
        (List.not_mem_nil _)).mpr ⟨u, hu, he⟩
      exact ⟨normKey x, ⟨x, Or.inl hx, rfl⟩, by rw [firstKeep_mem_key hx, he2]⟩
    · obtain ⟨x, hx, he2⟩ := (firstKeep_key_mem o [] (normKey t) hne
        (List.not_mem_nil _)).mpr ⟨u, hu, he⟩
      exact ⟨normKey x, ⟨x, Or.inr hx, rfl⟩, by rw [firstKeep_mem_key hx, he2]⟩

/-- The `added` component of a merge: the final tags whose key is absent
from the raw historical ++ own tags. -/
theorem mergeTags_added_eq (le : Str → Str → Bool) (o p h : List Str) (cfg : MergeConfig) :
    (mergeTags le o p (some h) cfg).added
      = (mergeTags le o p (some h) cfg).tags.filter
          (fun t => !((h ++ o).any fun u => normKey u == normKey t)) := by
  show ((mergeTags le o p (some h) cfg).tags).filter _ = _
  apply List.filter_congr
  intro t ht
  have hne := (mem_tags_key_nonempty ht).2
  have hred : (match some h with
      | some hh => dedupe le hh false
      | none => ([] : List Str)) = dedupe le h false := rfl
  rw [hred, show dedupe le h false = firstKeep [] h from dedupe_false_eq le h,
    show dedupe le o false = firstKeep [] o from dedupe_false_eq le o]
  rw [existingSet_any_eq h o t hne]

/-! ## Style equivalence of tags (spec §8 "Normalization") -/

/-- Two raw tags that differ only in letter case and in the style/length of
their whitespace/underscore/slash separator runs. -/
inductive StyleEquiv : Str → Str → Prop where
  | nil : StyleEquiv [] []
  | char {c d : Char} {as bs : Str} :
      isSep c = false → isSep d = false → c.toLower = d.toLower →
      StyleEquiv as bs → StyleEquiv (c :: as) (d :: bs)
  | seps {s₁ s₂ as bs : Str} :
      s₁ ≠ [] → s₂ ≠ [] → (∀ c ∈ s₁, isSep c = true) → (∀ c ∈ s₂, isSep c = true) →
      StyleEquiv as bs → StyleEquiv (s₁ ++ as) (s₂ ++ bs)

theorem collapseAux_true_sep_skip : ∀ (s r : Str), (∀ c ∈ s, isSep c = true) →
    collapseAux true (s ++ r) = collapseAux true r := by
  intro s
  induction s with
  | nil => intro r _; rfl
  | cons c s ih =>
    intro r hall
    rw [List.cons_append]
    simp only [collapseAux, hall c (List.mem_cons_self c s), if_true]
    exact ih r (fun d hd => hall d (List.mem_cons_of_mem c hd))

theorem collapseAux_false_sep_run (s r : Str) (hne : s ≠ [])
    (hall : ∀ c ∈ s, isSep c = true) :
    collapseAux false (s ++ r) = ' ' :: collapseAux true r := by
  cases s with
  | nil => exact absurd rfl hne
  | cons c s =>
    rw [List.cons_append]
    simp only [collapseAux, hall c (List.mem_cons_self c s), if_true]
    rw [if_neg Bool.false_ne_true]
    exact congrArg _ (collapseAux_true_sep_skip s r (fun d hd => hall d (List.mem_cons_of_mem c hd)))

theorem styleEquiv_collapse {a b : Str} (h : StyleEquiv a b) :
    ∀ m : Bool, lowerStr (collapseAux m a) = lowerStr (collapseAux m b) := by
  induction h with
  | nil => intro m; rfl
  | char hc hd hlow _ ih =>
    intro m
    rename_i c d as bs _
    have ha : collapseAux m (c :: as) = c :: collapseAux false as := by
      cases m <;> simp only [collapseAux, hc, Bool.false_eq_true, if_false]
    have hb : collapseAux m (d :: bs) = d :: collapseAux false bs := by
      cases m <;> simp only [collapseAux, hd, Bool.false_eq_true, if_false]
    rw [ha, hb, lowerStr, lowerStr, List.map_cons, List.map_cons, hlow]
    exact congrArg _ (ih false)
  | seps hne₁ hne₂ hall₁ hall₂ _ ih =>
    intro m
    cases m with
    | true =>
      rw [collapseAux_true_sep_skip _ _ hall₁, collapseAux_true_sep_skip _ _ hall₂]
      exact ih true
    | false =>
      rw [collapseAux_false_sep_run _ _ hne₁ hall₁, collapseAux_false_sep_run _ _ hne₂ hall₂]
      rw [lowerStr, lowerStr, List.map_cons, List.map_cons]
      exact congrArg _ (ih true)

theorem toLower_beq_space (c : Char) : (Char.toLower c == ' ') = (c == ' ') := by
  rw [Bool.eq_iff_iff]
  simp [toLower_eq_space_iff]

theorem lowerStr_trimSpaces (l : Str) :
    lowerStr (trimSpaces l) = trimSpaces (lowerStr l) := by
  have hp : ((· == ' ') ∘ Char.toLower) = fun c : Char => c == ' ' := by
    funext c
    exact toLower_beq_space c
  rw [trimSpaces, trimSpaces, lowerStr, lowerStr]
  rw [List.dropWhile_map, hp, ← List.map_reverse, List.dropWhile_map, hp, ← List.map_reverse]

/-- Tags differing only in case and separator style share their
case-insensitive key. -/
theorem styleEquiv_normKey {a b : Str} (h : StyleEquiv a b) : normKey a = normKey b := by
  rw [normKey, normKey, normalizeTag, normalizeTag, collapseSeps, collapseSeps]
  rw [lowerStr_trimSpaces, lowerStr_trimSpaces]
  exact congrArg _ (styleEquiv_collapse h false)

/-! ## Infrastructure for the front-matter, index, and LLM claims -/

/-- The four outcome lists of the entry loop are the per-status filters of
the entry list. -/
theorem applyEntries_eq (le : Str → Str → Bool) (fa : Bool)
    (lookup : Str → Option (List Str)) (onDisk : Str → Bool) (sort : Bool) :
    ∀ entries : List (Str × List Str),
    applyEntries le fa lookup onDisk sort entries =
      { updated := (entries.filter fun e =>
          decide (entryStatus le fa lookup onDisk sort e = .updated)).map Prod.fst
        unchanged := (entries.filter fun e =>
          decide (entryStatus le fa lookup onDisk sort e = .unchanged)).map Prod.fst
        missing := (entries.filter fun e =>
          decide (entryStatus le fa lookup onDisk sort e = .missing)).map Prod.fst
        filteredOut := (entries.filter fun e =>
          decide (entryStatus le fa lookup onDisk sort e = .filteredOut)).map Prod.fst } := by
  intro entries
  induction entries with
  | nil => rfl
  | cons entry rest ih =>
    cases hst : entryStatus le fa lookup onDisk sort entry with
    | updated => simp [applyEntries, List.filter_cons, hst, ih]
    | unchanged => simp [applyEntries, List.filter_cons, hst, ih]
    | missing => simp [applyEntries, List.filter_cons, hst, ih]
    | filteredOut => simp [applyEntries, List.filter_cons, hst, ih]

/-- Every map `sortTagsMap` produces is sorted by the collator on keys. -/
theorem sortTagsMap_pairwise (enLe : Str → Str → Bool)
    (htrans : ∀ a b c : Str, enLe a b = true → enLe b c = true → enLe a c = true)
    (htotal : ∀ a b : Str, (enLe a b || enLe b a) = true) (m : TagsMap) :
    (sortTagsMap enLe m).Pairwise (fun a b => enLe a.1 b.1 = true) :=
  List.sorted_mergeSort (fun a b c h1 h2 => htrans a.1 b.1 c.1 h1 h2)
    (fun a b => htotal a.1 b.1) m

/-- A per-document worker whose callback succeeds returns after its first
attempt, whatever that attempt produced. -/
theorem processPost_ok_cb (le : Str → Str → Bool) (cfg : MergeConfig)
    (own hist : List Str) (responses : Nat → LlmResponse) (retries : Nat) :
    processPost le cfg own hist responses (fun _ => .ok ()) retries
      = .ok { result := some (responses 0)
              merge := some (mergeTags le own (responses 0).tags (some hist) cfg)
              backoffs := [] } := by
  unfold processPost
  unfold attemptLoop
  simp

/-- With succeeding callbacks, `generateTags` yields one entry per
document, each holding the first attempt response and its merge. -/
theorem generateTags_ok_cb (le : Str → Str → Bool) (cfg : MergeConfig)
    (responses : Str → Nat → LlmResponse) (retriesOpt : Option Nat) :
    ∀ (posts : List Post) (historical : TagsMap),
    ∃ l, generateTags le cfg responses (fun _ _ => .ok ()) retriesOpt historical posts = .ok l
      ∧ l.map Prod.fst = posts.map Post.id
      ∧ ∀ pr ∈ l, ∃ post, post ∈ posts ∧ ∃ hist : List Str,
          pr = (post.id,
            { result := some (responses post.id 0)
              merge := some (mergeTags le post.own (responses post.id 0).tags (some hist) cfg)
              backoffs := [] }) := by
  intro posts
  induction posts with
  | nil =>
    intro historical
    exact ⟨[], rfl, rfl, by intro pr hpr; simp at hpr⟩
  | cons post rest ih =>
    intro historical
    obtain ⟨tail, htail, hmap, hall⟩ := ih
      (setKey historical post.id
        (mergeTags le post.own (responses post.id 0).tags
          (some (((historical.find? (fun kv => kv.1 == post.id)).map Prod.snd).getD [])) cfg).tags)
    refine ⟨(post.id,
        { result := some (responses post.id 0)
          merge := some (mergeTags le post.own (responses post.id 0).tags
            (some (((historical.find? (fun kv => kv.1 == post.id)).map Prod.snd).getD [])) cfg)
          backoffs := [] }) :: tail, ?_, ?_, ?_⟩
    · show (match processPost le cfg post.own
          (((historical.find? (fun kv => kv.1 == post.id)).map Prod.snd).getD [])
          (responses post.id) (fun _ => Except.ok ()) (retriesOpt.getD 2) with
        | .error e => Except.error e
        | .ok st => _) = _
      rw [processPost_ok_cb]
      simp only []
      rw [htail]
    · rw [List.map_cons, List.map_cons, hmap]
    · intro pr hpr
      rcases List.mem_cons.mp hpr with h | h
      · exact ⟨post, List.mem_cons_self _ _, _, h⟩
      · obtain ⟨post2, hmem, hist2, he⟩ := hall pr h
        exact ⟨post2, List.mem_cons_of_mem _ hmem, hist2, he⟩

/-- A concrete total, transitive collator: lexicographic order on the
character codes (used to instantiate witnesses). -/
def leList : Str → Str → Bool := fun a b => decide (a ≤ b)

theorem leList_trans : ∀ a b c : Str, leList a b = true → leList b c = true →
    leList a c = true := by
  intro a b c h1 h2
  exact decide_eq_true (le_trans (of_decide_eq_true h1) (of_decide_eq_true h2))

theorem leList_total : ∀ a b : Str, (leList a b || leList b a) = true := by
  intro a b
  rcases le_total a b with h | h
  · simp [leList, h]
  · simp [leList, h]

/-- The category loop is a first-match search over the declared order. -/
theorem classifyTag_find? (tax : Taxonomy) (tag : Str) :
    classifyTag (some tax) tag
      = (((tax.find? fun cr => includesMatch cr.2 tag || patternMatch cr.2 tag).map
          Prod.fst).getD (str "uncategorized")) := by
  induction tax with
  | nil => simp [classifyTag]
  | cons cr rest ih =>
    obtain ⟨category, rule⟩ := cr
    by_cases hi : includesMatch rule tag = true
    · simp [classifyTag, hi, List.find?_cons]
    · by_cases hp : patternMatch rule tag = true
      · simp [classifyTag, hi, hp, List.find?_cons]
      · simp only [classifyTag, hi, hp, if_false, Bool.false_eq_true]
        rw [ih]
        have hcond : (includesMatch rule tag || patternMatch rule tag) = false := by
          simp only [Bool.or_eq_false_iff]
          exact ⟨by simpa using hi, by simpa using hp⟩
        simp [List.find?_cons, hcond]

theorem mem_map_fst_filter_any (ids : List Str) (m : TagsMap) (k : Str) :
    k ∈ (m.filter fun kv => ids.any fun p => p == kv.1).map Prod.fst
      ↔ (k ∈ m.map Prod.fst ∧ k ∈ ids) := by
  simp only [List.mem_map, List.mem_filter, List.any_eq_true, beq_iff_eq]
  constructor
  · rintro ⟨kv, ⟨hkv, q, hq, he⟩, hfst⟩
    exact ⟨⟨kv, hkv, hfst⟩, by rw [← hfst, ← he]; exact hq⟩
  · rintro ⟨⟨kv, hkv, hfst⟩, hk⟩
    exact ⟨kv, ⟨hkv, k, hk, hfst.symm⟩, hfst⟩

/-! ## The claims -/

/-- Concrete responses for the retry scenario of claim C1: the first two
attempts fail with a transport error, the third would succeed. -/
def c1responses : Nat → LlmResponse := fun n =>
  callChatCompletion (some (str "key")) (fun _ => [str "T"])
    (if n < 2 then .fail (str "HTTP 500: boom") else .ok (str "[T]"))

/-- C1: the spec claims a document whose adapter fails twice and succeeds
on attempt 3 is retried with two backoff delays and ends successful.  The
code does not do this: `callChatCompletion` catches every transport
failure and returns it as a value, so the worker loop returns after the
first attempt with the failure recorded, zero backoff delays observed,
and the historical+own fallback merge — attempts 2 and 3 never happen. -/
theorem C1_transport_failure_not_retried :
    processPost (fun _ _ => true) ⟨false, none⟩ [str "own"] [] c1responses
        (fun _ => .ok ()) 2
      = .ok { result := some { tags := [], raw := none, error := some (str "HTTP 500: boom") }
              merge := some (mergeTags (fun _ _ => true) [str "own"] [] (some []) ⟨false, none⟩)
              backoffs := [] } := by
  rw [processPost_ok_cb]
  rfl

/-- C2 counterexample: the tag lists `["a_b"]` and `["a b"]` are identical
under TagMerger normalization, yet the synchronizer does not classify the
document as unchanged (its `dedupeTags` only trims). -/
theorem C2_counterexample :
    dedupe (fun _ _ => true) [str "a_b"] false = dedupe (fun _ _ => true) [str "a b"] false
    ∧ entryStatus (fun _ _ => true) false (fun _ => some [str "a b"]) (fun _ => false) false
        (str "p", [str "a_b"]) = .updated := by
  constructor
  · decide
  · decide

/-- C2 (amended): the synchronizer compares the index entry against the
document's own tags after trim-based case-insensitive dedupe
(`dedupeTags`, not TagMerger's separator-collapsing normalization), under
the shared collator when sorting; a present document is `unchanged`
exactly when the two lists so computed are equal, and the run's
`unchanged` report lists exactly those entries. -/
theorem C2_unchanged_amended (le : Str → Str → Bool) (filterApplied : Bool)
    (lookup : Str → Option (List Str)) (onDisk : Str → Bool) (sortTags : Bool)
    (entries : List (Str × List Str)) (path : Str) (tagList own : List Str)
    (hlookup : lookup path = some own) :
    (entryStatus le filterApplied lookup onDisk sortTags (path, tagList) = .unchanged
      ↔ dedupeTags le tagList sortTags = dedupeTags le own sortTags)
    ∧ (applyEntries le filterApplied lookup onDisk sortTags entries).unchanged
        = (entries.filter fun e =>
            decide (entryStatus le filterApplied lookup onDisk sortTags e = .unchanged)).map
            Prod.fst := by
  constructor
  · by_cases hd : dedupeTags le tagList sortTags = dedupeTags le own sortTags
    · simp [entryStatus, hlookup, hd]
    · simp [entryStatus, hlookup, hd]
  · rw [applyEntries_eq]

theorem C2_unchanged_amended_witness :
    entryStatus (fun _ _ => true) false (fun _ => some [str "x"]) (fun _ => false) false
      (str "p", [str " x"]) = .unchanged :=
  (C2_unchanged_amended (fun _ _ => true) false (fun _ => some [str "x"]) (fun _ => false)
    false [] (str "p") [str " x"] [str "x"] rfl).1.mpr (by decide)

/-- C3: the pruning rule at finalize — a filtered pass deletes nothing,
an unfiltered pass keeps exactly the identifiers seen in the current
corpus pass. -/
theorem C3_prune_rule (processedPaths : List Str) (m : TagsMap) :
    pruneAbsent true processedPaths m = m
    ∧ ∀ k : Str, k ∈ (pruneAbsent false processedPaths m).map Prod.fst
        ↔ (k ∈ m.map Prod.fst ∧ k ∈ processedPaths) := by
  constructor
  · rfl
  · intro k
    rw [pruneAbsent, if_neg Bool.false_ne_true]
    exact mem_map_fst_filter_any processedPaths m k

theorem C3_prune_rule_witness :
    pruneAbsent true [str "a"] [(str "gone", [str "t"])] = [(str "gone", [str "t"])]
    ∧ (str "gone" ∈ (pruneAbsent false [str "a"] [(str "gone", [str "t"])]).map Prod.fst
        ↔ (str "gone" ∈ [(str "gone", [str "t"])].map Prod.fst ∧ str "gone" ∈ [str "a"])) :=
  ⟨(C3_prune_rule [str "a"] [(str "gone", [str "t"])]).1,
    (C3_prune_rule [str "a"] [(str "gone", [str "t"])]).2 (str "gone")⟩

/-- C4 counterexample: with an active path filter, an index entry whose
file is absent from disk is reported `filteredOut`, not `missing` — the
code never probes the disk once a filter is active, contradicting
"missing exactly when the file is absent from disk". -/
theorem C4_counterexample :
    entryStatus (fun _ _ => true) true (fun _ => none) (fun _ => false) false
        (str "p", []) = .filteredOut
    ∧ entryStatus (fun _ _ => true) true (fun _ => none) (fun _ => false) false
        (str "p", []) ≠ .missing := by
  constructor
  · decide
  · decide

/-- C4 (amended): an index entry absent from the loaded corpus pass is
reported `missing` exactly when no path filter is active and the file is
absent from disk, and `filteredOut` exactly when a path filter is active
(regardless of the disk) or the file is present on disk. -/
theorem C4_missing_filteredOut_amended (le : Str → Str → Bool) (filterApplied : Bool)
    (lookup : Str → Option (List Str)) (onDisk : Str → Bool) (sortTags : Bool)
    (path : Str) (tagList : List Str) (h : lookup path = none) :
    (entryStatus le filterApplied lookup onDisk sortTags (path, tagList) = .missing
      ↔ (filterApplied = false ∧ onDisk path = false))
    ∧ (entryStatus le filterApplied lookup onDisk sortTags (path, tagList) = .filteredOut
      ↔ (filterApplied = true ∨ onDisk path = true)) := by
  cases filterApplied with
  | true => simp [entryStatus, h]
  | false =>
    cases hd : onDisk path with
    | true => simp [entryStatus, h, hd]
    | false => simp [entryStatus, h, hd]

theorem C4_missing_filteredOut_amended_witness :
    entryStatus (fun _ _ => true) false (fun _ => none) (fun _ => false) false
      (str "p", []) = .missing :=
  (C4_missing_filteredOut_amended (fun _ _ => true) false (fun _ => none) (fun _ => false)
    false (str "p") [] rfl).1.mpr ⟨rfl, rfl⟩

/-- C5: the merge builds the ordered union historical, then own, then
proposed with the first case-insensitive occurrence winning for casing
and position; with sort enabled the result is the same set in collator
order; and the spec example computes as stated. -/
theorem C5_merge_ordered_union (le : Str → Str → Bool)
    (htrans : ∀ a b c : Str, le a b = true → le b c = true → le a c = true)
    (htotal : ∀ a b : Str, (le a b || le b a) = true)
    (h o p : List Str) (tax : Option Taxonomy) :
    (mergeTags le o p (some h) ⟨false, tax⟩).tags = specOrderedUnion (h ++ o ++ p)
    ∧ (mergeTags le o p (some h) ⟨true, tax⟩).tags.Perm (specOrderedUnion (h ++ o ++ p))
    ∧ (mergeTags le o p (some h) ⟨true, tax⟩).tags.Pairwise (fun a b => le a b = true)
    ∧ (mergeTags le [str "B", str "C"] [str "C", str "D"]
        (some [str "A", str "B"]) ⟨false, tax⟩).tags
        = [str "A", str "B", str "C", str "D"] := by
  refine ⟨?_, ?_, ?_, ?_⟩
  · rw [mergeTags_tags_eq, if_neg Bool.false_ne_true, specOrderedUnion_eq]
  · rw [mergeTags_tags_eq, if_pos rfl, specOrderedUnion_eq]
    exact List.mergeSort_perm _ le
  · rw [mergeTags_tags_eq, if_pos rfl]
    exact List.sorted_mergeSort htrans htotal _
  · rw [mergeTags_tags_eq, if_neg Bool.false_ne_true]
    decide

theorem C5_merge_ordered_union_witness :
    (mergeTags leList [str "B", str "C"] [str "C", str "D"]
      (some [str "A", str "B"]) ⟨false, none⟩).tags
      = [str "A", str "B", str "C", str "D"] :=
  (C5_merge_ordered_union leList leList_trans leList_total [] [] [] none).2.2.2

/-- C6: `added` is exactly the set of final tags whose normalized key is
absent from the historical ++ own tags considered before proposed tags
were folded in; the spec example computes as stated. -/
theorem C6_added_tags (le : Str → Str → Bool) (h o p : List Str) (cfg : MergeConfig) :
    (mergeTags le o p (some h) cfg).added
      = (mergeTags le o p (some h) cfg).tags.filter
          (fun t => decide (¬ ∃ u ∈ h ++ o, normKey u = normKey t))
    ∧ (mergeTags leList [] [str "X", str "Y"] (some [str "X"]) ⟨false, none⟩).added
        = [str "Y"] := by
  constructor
  · rw [mergeTags_added_eq]
    apply List.filter_congr
    intro t _
    rw [Bool.eq_iff_iff]
    simp only [Bool.not_eq_true', Bool.not_eq_true, List.any_eq_false, beq_iff_eq,
      decide_eq_true_eq, List.mem_append]
    aesop
  · decide

/-- C7: normalization collapses whitespace/underscore/slash runs to
single interior spaces and trims; tags differing only in case or
separator style share one key; each merge result carries pairwise
distinct keys, represented by the normalization of the first input
occurrence of the key, and never contains the empty string. -/
theorem C7_normalization :
    (∀ s : Str, (∀ c ∈ normalizeTag s, isSep c = true → c = ' ')
      ∧ List.Chain' SpacedOk (normalizeTag s)
      ∧ (∀ c, (normalizeTag s).head? = some c → c ≠ ' ')
      ∧ (∀ c, (normalizeTag s).getLast? = some c → c ≠ ' '))
    ∧ (∀ a b : Str, StyleEquiv a b → normKey a = normKey b)
    ∧ (∀ (le : Str → Str → Bool) (h o p : List Str) (cfg : MergeConfig),
        ((mergeTags le o p (some h) cfg).tags.map normKey).Nodup
        ∧ (∀ t ∈ (mergeTags le o p (some h) cfg).tags, t ≠ [])
        ∧ (∀ t ∈ (mergeTags le o p (some h) cfg).tags,
            ∃ pre u post, h ++ o ++ p = pre ++ u :: post ∧ t = normalizeTag u
              ∧ ∀ v ∈ pre, normKey v ≠ normKey t)) := by
  refine ⟨normalizeTag_shape, fun a b hab => styleEquiv_normKey hab, ?_⟩
  intro le h o p cfg
  have hperm : (mergeTags le o p (some h) cfg).tags.Perm (firstKeep [] (h ++ o ++ p)) := by
    rw [mergeTags_tags_eq]
    cases hs : cfg.sortTags
    · rw [if_neg Bool.false_ne_true]
    · rw [if_pos rfl]
      exact List.mergeSort_perm _ le
  refine ⟨?_, ?_, ?_⟩
  · have hmap : (mergeTags le o p (some h) cfg).tags.map normKey
        = (mergeTags le o p (some h) cfg).tags.map lowerStr :=
      List.map_congr_left fun t ht => (mem_tags_key_nonempty ht).1
    rw [hmap]
    exact (firstKeep_keys_nodup (h ++ o ++ p) []).1.perm (hperm.map lowerStr).symm
  · intro t ht
    exact (firstKeep_mem _ _ _ (hperm.mem_iff.mp ht)).2.1
  · intro t ht
    obtain ⟨pre, u, post, hsplit, he, hpre⟩ :=
      firstKeep_first_seen (h ++ o ++ p) [] t (hperm.mem_iff.mp ht)
    exact ⟨pre, u, post, hsplit, he, hpre⟩

theorem C7_normalization_witness :
    normKey (str "A_B") = normKey (str "a b") :=
  C7_normalization.2.1 (str "A_B") (str "a b")
    (StyleEquiv.char (by decide) (by decide) (by decide)
      (@StyleEquiv.seps ['_'] [' '] ['B'] ['b']
        (by decide) (by decide) (by decide) (by decide)
        (StyleEquiv.char (by decide) (by decide) (by decide) StyleEquiv.nil)))

/-- C8: classification assigns the first declared category whose includes
contain the tag case-insensitively or whose pattern matches the raw tag
(include checked before pattern inside `classifyTag`); no taxonomy or no
matching rule classifies as uncategorized, and a malformed pattern only
disables that category's pattern check. -/
theorem C8_classification (tax : Taxonomy) (tag : Str) :
    classifyTag none tag = str "uncategorized"
    ∧ classifyTag (some tax) tag
        = (((tax.find? fun cr => includesMatch cr.2 tag || patternMatch cr.2 tag).map
            Prod.fst).getD (str "uncategorized"))
    ∧ ((∀ cr ∈ tax, includesMatch cr.2 tag = false ∧ patternMatch cr.2 tag = false) →
        classifyTag (some tax) tag = str "uncategorized")
    ∧ (∀ (category : Str) (rule : TaxonomyRule) (rest : Taxonomy),
        rule.pattern = some .malformed → includesMatch rule tag = false →
        classifyTag (some ((category, rule) :: rest)) tag = classifyTag (some rest) tag)
    ∧ (∀ rule : TaxonomyRule, rule.pattern = some .malformed →
        patternMatch rule tag = false) := by
  refine ⟨by simp [classifyTag], classifyTag_find? tax tag, ?_, ?_, ?_⟩
  · intro hall
    rw [classifyTag_find? tax tag]
    have hnone : (tax.find? fun cr => includesMatch cr.2 tag || patternMatch cr.2 tag)
        = none := by
      rw [List.find?_eq_none]
      intro cr hcr
      simp [(hall cr hcr).1, (hall cr hcr).2]
    rw [hnone]
    rfl
  · intro category rule rest hpat hinc
    have hp : patternMatch rule tag = false := by simp [patternMatch, hpat]
    simp [classifyTag, hinc, hp]
  · intro rule hpat
    simp [patternMatch, hpat]

/-- The concrete taxonomy of the C8 witness: a first category whose
pattern is malformed, a second matched by a valid pattern. -/
def c8tax : Taxonomy :=
  [(str "lang", { includes := some [str "rust"], pattern := some .malformed }),
   (str "web", { includes := none, pattern := some (.valid (fun t => t == str "css")) })]

theorem C8_classification_witness :
    classifyTag (some c8tax) (str "css") = str "web"
    ∧ classifyTag (some c8tax) (str "Rust") = str "lang" := by
  constructor
  · rw [(C8_classification c8tax (str "css")).2.1]
    rfl
  · rw [(C8_classification c8tax (str "Rust")).2.1]
    rfl

/-- C9: when every generation attempt fails (the adapter returns a
transport failure for each attempt), each document's result records the
error of the last attempt performed, its merge uses an empty proposed
list — so its final tags are exactly the merge of historical and own
tags, the ordered union of historical ++ own — and the run completes
with one entry per document, never propagating the failure. -/
theorem C9_failure_fallback (le : Str → Str → Bool) (cfg : MergeConfig)
    (apiKey : Str) (parse : Str → List Str) (failMsg : Str → Nat → Str)
    (retriesOpt : Option Nat) (posts : List Post) (historical : TagsMap) :
    (∃ l, generateTags le cfg
        (fun id n => callChatCompletion (some apiKey) parse (.fail (failMsg id n)))
        (fun _ _ => .ok ()) retriesOpt historical posts = .ok l
      ∧ l.map Prod.fst = posts.map Post.id
      ∧ ∀ pr ∈ l, ∃ post, post ∈ posts ∧ ∃ hist : List Str,
          pr = (post.id,
            { result := some { tags := [], raw := none, error := some (failMsg post.id 0) }
              merge := some (mergeTags le post.own [] (some hist) cfg)
              backoffs := [] }))
    ∧ (∀ (own hist : List Str) (tax : Option Taxonomy),
        (mergeTags le own [] (some hist) ⟨false, tax⟩).tags
          = specOrderedUnion (hist ++ own)) := by
  constructor
  · obtain ⟨l, hgen, hmap, hall⟩ := generateTags_ok_cb le cfg
      (fun id n => callChatCompletion (some apiKey) parse (.fail (failMsg id n)))
      retriesOpt posts historical
    refine ⟨l, hgen, hmap, ?_⟩
    intro pr hpr
    obtain ⟨post, hmem, hist, he⟩ := hall pr hpr
    exact ⟨post, hmem, hist, he⟩
  · intro own hist tax
    rw [mergeTags_tags_eq, if_neg Bool.false_ne_true, List.append_nil,
      specOrderedUnion_eq]

theorem C9_failure_fallback_witness :
    ∃ l, generateTags leList ⟨false, none⟩
        (fun _ _ => callChatCompletion (some (str "k")) (fun _ => [])
          (.fail (str "connection reset")))
        (fun _ _ => .ok ()) none [] [{ id := str "p", own := [str "own"] }] = .ok l
      ∧ l.map Prod.fst = [str "p"] := by
  obtain ⟨⟨l, hgen, hmap, _⟩, _⟩ := C9_failure_fallback leList ⟨false, none⟩ (str "k")
    (fun _ => []) (fun _ _ => str "connection reset") none
    [{ id := str "p", own := [str "own"] }] []
  exact ⟨l, hgen, hmap⟩

/-- C10: every map handed to the persistence layer during a generate run
— each incremental snapshot and the finalize map, whatever the completion
order — has its keys sorted by the collator, having passed through
`sortTagsMap`. -/
theorem C10_writes_sorted (enLe : Str → Str → Bool)
    (htrans : ∀ a b c : Str, enLe a b = true → enLe b c = true → enLe a c = true)
    (htotal : ∀ a b : Str, (enLe a b || enLe b a) = true)
    (dryRun filterApplied : Bool) (historical : TagsMap)
    (processedPaths : List Str) (completions : List (Str × List Str)) :
    ∀ w ∈ runGenerateWrites enLe dryRun filterApplied historical processedPaths completions,
      w.Pairwise (fun a b => enLe a.1 b.1 = true) := by
  intro w hw
  rw [runGenerateWrites] at hw
  rcases List.mem_append.mp hw with hmem | hmem
  · cases dryRun with
    | true => simp at hmem
    | false =>
      rw [if_neg Bool.false_ne_true] at hmem
      obtain ⟨i, _, he⟩ := List.mem_map.mp hmem
      rw [← he]
      exact sortTagsMap_pairwise enLe htrans htotal _
  · rw [List.mem_singleton.mp hmem]
    exact sortTagsMap_pairwise enLe htrans htotal _

theorem C10_writes_sorted_witness :
    List.Pairwise (fun a b : Str × List Str => leList a.1 b.1 = true)
      [(str "a", [str "x"]), (str "b", [])] := by
  refine C10_writes_sorted leList leList_trans leList_total false false
    [(str "b", [])] [str "a", str "b"] [(str "a", [str "x"])] _ ?_
  rw [runGenerateWrites]
  rw [if_neg Bool.false_ne_true]
  apply List.mem_append_left
  apply List.mem_map.mpr
  refine ⟨0, by decide, ?_⟩
  show sortTagsMap leList (applyUpdates [(str "b", [])] [(str "a", [str "x"])])
    = [(str "a", [str "x"]), (str "b", [])]
  rw [show applyUpdates [(str "b", [])] [(str "a", [str "x"])]
      = [(str "b", []), (str "a", [str "x"])] from by decide]
  rw [sortTagsMap]
  simp [List.mergeSort, List.merge, leList]
  decide
